import Mathlib

/-!
Shallow embedding of the ZTF_image_classification pipeline
(`data_normalization.ipynb` and `star_gal_MuyGPs_classification.ipynb`).

Numeric model: a pixel value handled by numpy is either a finite number
(modelled as a rational) or one of the IEEE-754 special values `nan`,
`+inf`, `-inf`.  The arithmetic cases that the notebooks can reach
(subtraction, division, elementwise minimum/maximum, `np.log10`) are
embedded with their IEEE semantics: `log10 0 = -inf`, `log10 x = nan`
for `x < 0`, `-inf - -inf = nan`, `0 / 0 = nan`, `x / 0 = ±inf` for
`x ≠ 0`, and `nan` is absorbing for `np.amin` / `np.amax` reductions.
`np.log10` on a strictly positive rational has an irrational value, so
the embedding is parametrised by the function `L : ℚ → ℚ` standing for
`log10` restricted to positive arguments; every theorem that needs a
property of `log10` (its sign around 1) takes that property as an
explicit hypothesis on `L`.
-/

namespace ZTF

/-- A numpy floating-point scalar: finite value, NaN, +infinity or
-infinity. -/
inductive FV where
  | fin (q : ℚ)
  | nan
  | inf
  | ninf
deriving DecidableEq, Repr, Inhabited

/-- IEEE subtraction on the embedded scalars (`a - b` in numpy). -/
def subF : FV → FV → FV
  | .nan, _ => .nan
  | _, .nan => .nan
  | .fin p, .fin q => .fin (p - q)
  | .fin _, .inf => .ninf
  | .fin _, .ninf => .inf
  | .inf, .fin _ => .inf
  | .inf, .inf => .nan
  | .inf, .ninf => .inf
  | .ninf, .fin _ => .ninf
  | .ninf, .inf => .ninf
  | .ninf, .ninf => .nan

/-- IEEE division on the embedded scalars (`a / b` in numpy; division of
a nonzero finite value by zero gives a signed infinity, `0 / 0 = nan`). -/
def divF : FV → FV → FV
  | .nan, _ => .nan
  | _, .nan => .nan
  | .fin p, .fin q =>
      if q = 0 then (if p = 0 then .nan else if 0 < p then .inf else .ninf)
      else .fin (p / q)
  | .fin _, .inf => .fin 0
  | .fin _, .ninf => .fin 0
  | .inf, .fin q => if q < 0 then .ninf else .inf
  | .ninf, .fin q => if q < 0 then .inf else .ninf
  | .inf, .inf => .nan
  | .inf, .ninf => .nan
  | .ninf, .inf => .nan
  | .ninf, .ninf => .nan

/-- Binary minimum with numpy reduction semantics: `nan` is absorbing,
`-inf` is the bottom element, `+inf` the top. -/
def fminF : FV → FV → FV
  | .nan, _ => .nan
  | _, .nan => .nan
  | .ninf, _ => .ninf
  | _, .ninf => .ninf
  | .fin p, .fin q => .fin (min p q)
  | .fin p, .inf => .fin p
  | .inf, .fin q => .fin q
  | .inf, .inf => .inf

/-- Binary maximum with numpy reduction semantics. -/
def fmaxF : FV → FV → FV
  | .nan, _ => .nan
  | _, .nan => .nan
  | .inf, _ => .inf
  | _, .inf => .inf
  | .fin p, .fin q => .fin (max p q)
  | .fin p, .ninf => .fin p
  | .ninf, .fin q => .fin q
  | .ninf, .ninf => .ninf

/-- `np.amin` / `np.min` over a vector.  numpy raises on an empty array;
every vector in the pipeline is a flattened 20×20 cutout (length 400),
so the empty case is given the junk value `nan`. -/
def aminF : List FV → FV
  | [] => .nan
  | x :: xs => xs.foldl fminF x

/-- `np.amax` / `np.max` over a vector. -/
def amaxF : List FV → FV
  | [] => .nan
  | x :: xs => xs.foldl fmaxF x

/-- `np.log10`, parametrised by `L`, the (irrational-valued) restriction
of `log10` to positive rationals: `log10 0 = -inf`, `log10 x = nan` for
negative `x`. -/
def log10F (L : ℚ → ℚ) : FV → FV
  | .fin q => if 0 < q then .fin (L q) else if q = 0 then .ninf else .nan
  | .inf => .inf
  | .ninf => .nan
  | .nan => .nan

/-- Whether an embedded scalar is a finite number. -/
def isFinite : FV → Bool
  | .fin _ => true
  | _ => false

/-- A concrete stand-in for `log10` on positives, used to instantiate
closed evaluations; like `log10` it is zero at 1, negative on `(0,1)`
and positive beyond 1. -/
def logStub : ℚ → ℚ := fun q => q - 1

/-- Technique 1 (`norm_1` in `data_normalization.ipynb`):
log each pixel, subtract the per-sample minimum of the logs. -/
def norm_1 (L : ℚ → ℚ) (data : List FV) : List FV :=
  let data_log := data.map (log10F L)
  let min_log_data := aminF data_log
  data_log.map (fun x => subF x min_log_data)

/-- Technique 2 (`norm_2`): per-sample min-max scaling
`(data - min) / (max - min)`. -/
def norm_2 (data : List FV) : List FV :=
  let min_data := aminF data
  let max_data := amaxF data
  data.map (fun x => divF (subF x min_data) (subF max_data min_data))

/-- Technique 3 (`norm_3`): global min-max scaling
`(data - min_pixel_all) / (max_pixel_all - min_pixel_all)`; the two
corpus-wide extrema are notebook globals, passed here explicitly. -/
def norm_3 (min_pixel_all max_pixel_all : FV) (data : List FV) : List FV :=
  data.map (fun x => divF (subF x min_pixel_all) (subF max_pixel_all min_pixel_all))

/-- Technique 4 (`norm_4`): subtract the per-sample minimum, divide by
the corpus-wide maximum. -/
def norm_4 (max_pixel_all : FV) (data : List FV) : List FV :=
  let min_data := aminF data
  data.map (fun x => divF (subF x min_data) max_pixel_all)

/-- Technique 5 (`norm_5`): log each pixel, subtract the per-sample
minimum of the logs, divide by the log of the corpus-wide maximum. -/
def norm_5 (L : ℚ → ℚ) (max_pixel_all : FV) (data : List FV) : List FV :=
  let log_data := data.map (log10F L)
  let log_max_pixel := log10F L max_pixel_all
  let min_data := aminF log_data
  log_data.map (fun x => divF (subF x min_data) log_max_pixel)

/-- Corpus-wide minimum pixel value: the notebook appends
`np.min(data_flattened)` per cutout into `min_pixel` and then takes
`np.min(min_pixel)`. -/
def min_pixel_all (corpus : List (List FV)) : FV :=
  aminF (corpus.map aminF)

/-- Corpus-wide maximum pixel value (`max_pixel_all`). -/
def max_pixel_all (corpus : List (List FV)) : FV :=
  amaxF (corpus.map amaxF)

/-- One labelled sample as the tables hold it: truth label and flattened
pixel vector. -/
abbrev Sample := ℚ × List FV

/-- `image.flatten()`: row-major flattening of the 2-D pixel grid. -/
def flattenImage (image : List (List FV)) : List FV := image.flatten

/-- Python `s.startswith(pre)`, on the character sequences of the two
strings. -/
def startswith (s pre : String) : Bool := pre.data.isPrefixOf s.data

/-- Label inference inside the flatten-and-label loop, two independent
`if` statements with no `else`:
`if file.startswith('star')==True: obj_id = 0` then
`if file.startswith('galaxy')==True: obj_id = 1`.
When neither matches, `obj_id` keeps the value left over from the
previous iteration (`none` when it was never assigned, a Python
`NameError` at its first use). -/
def labelOf (prev : Option ℚ) (file : String) : Option ℚ :=
  let o := if startswith file "star" then some 0 else prev
  if startswith file "galaxy" then some 1 else o

/-- The flatten-and-label loop of `data_normalization.ipynb`, producing
the raw table `gal_star` (one row per cutout, label first, appended
unconditionally).  Input: the shuffled `(filename, flattened image)`
list.  `none` models the `NameError` crash when `obj_id` is referenced
before any assignment. -/
def loadLoop (prev : Option ℚ) : List (String × List FV) → Option (List Sample)
  | [] => some []
  | (file, image) :: rest =>
      match labelOf prev file with
      | none => none
      | some l => (loadLoop (some l) rest).map (fun rs => (l, image) :: rs)

/-- A persisted row `[label, v0, …]`: `np.append(obj_id, data)`. -/
def toRow (s : Sample) : List FV := FV.fin s.1 :: s.2

/-- The technique-application loop: for each row of `gal_star`, separate
the label (`row[:1]`) from the data (`row[1:]`), run the technique on
the data, and append `np.append(obj_id, norm_data)` to the technique's
table `gal_star_norm`.  Every row is appended unconditionally. -/
def applyTechnique (technique : List FV → List FV) (gal_star : List Sample) :
    List Sample :=
  gal_star.map (fun row => (row.1, technique row.2))

/-- `DataFrame.to_csv(path, header=False, index=False)`: the artifact's
lines are exactly the table's rows, with no header line prepended. -/
def to_csv (table : List (List FV)) : List (List FV) := table

/-- `pd.read_csv(path)` as the classification notebook calls it, with no
`header` argument.  pandas defaults to `header='infer'` (= `header=0`):
the first line of the file is consumed as the column names, and the
resulting frame holds only the remaining lines. -/
def read_csv (file : List (List FV)) : List (List FV) := file.drop 1

/-- `generate_onehot_value` from `star_gal_MuyGPs_classification.ipynb`:
`0 → [1., -1.]`, `1 → [-1., 1.]`, and a value matching neither `if`
branch appends nothing. -/
def generate_onehot_value : List ℚ → List (List ℚ)
  | [] => []
  | val :: rest =>
      if val = 0 then [1, -1] :: generate_onehot_value rest
      else if val = 1 then [-1, 1] :: generate_onehot_value rest
      else generate_onehot_value rest

/-- sklearn `train_test_split(..., test_size=r, random_state=seed)` with
a float `test_size`: `n_test = ⌈r·N⌉`, `n_train = N - n_test`, a
`ValueError` (here `none`) when either side would be empty; otherwise
the seeded permutation of `{0..N-1}` is cut as `test = perm[:n_test]`,
`train = perm[n_test:]`.  The numpy `RandomState(seed)` permutation is
external pseudo-randomness and enters as the parameter `perm`. -/
def train_test_split (N : ℕ) (r : ℚ) (perm : List ℕ) :
    Option (List ℕ × List ℕ) :=
  let n_test : ℕ := (⌈r * (N : ℚ)⌉).toNat
  let n_train : ℕ := N - n_test
  if n_test = 0 ∨ n_train = 0 then none
  else some (perm.take n_test, perm.drop n_test)

/-- An exception escaping the external classifier (`do_classify`). -/
structure ClassifierError where
  msg : String
deriving DecidableEq, Repr

/-- The repeated-trial evaluation sweep of the classification notebook,
over a flattened grid of trials.  The body calls `run_classifier` with
no `try`/`except`: an exception from the classifier propagates out of
the whole loop, so the trials after it never run.  The result pairs the
`(trial, accuracy)` list the loop delivers with the first uncaught
error, if any. -/
def sweepLoop (classify : ℕ → Except ClassifierError ℚ) :
    List ℕ → List (ℕ × ℚ) × Option ClassifierError
  | [] => ([], none)
  | t :: rest =>
      match classify t with
      | .error e => ([], some e)
      | .ok a =>
          let p := sweepLoop classify rest
          ((t, a) :: p.1, p.2)

/-- An embedded scalar lies in the closed unit interval (in particular it
is finite). -/
def inUnitInterval : FV → Prop
  | .fin q => 0 ≤ q ∧ q ≤ 1
  | _ => False

/-- Scenario A, sample 1: raw grid `[[1,2],[3,4]]`, flattened. -/
def sample1 : List FV := [FV.fin 1, FV.fin 2, FV.fin 3, FV.fin 4]

/-- Scenario A, sample 2: raw grid `[[5,6],[7,8]]`, flattened. -/
def sample2 : List FV := [FV.fin 5, FV.fin 6, FV.fin 7, FV.fin 8]

/-- Scenario A's two-sample corpus. -/
def scenarioA : List (List FV) := [sample1, sample2]

/-! ### Helper lemmas about the numpy reductions -/

lemma foldl_fminF_fin (l : List ℚ) :
    ∀ c : ℚ, (l.map FV.fin).foldl fminF (FV.fin c) = FV.fin (l.foldl min c) := by
  induction l with
  | nil => intro c; rfl
  | cons x xs ih =>
      intro c
      simpa [fminF] using ih (min c x)

lemma foldl_fmaxF_fin (l : List ℚ) :
    ∀ c : ℚ, (l.map FV.fin).foldl fmaxF (FV.fin c) = FV.fin (l.foldl max c) := by
  induction l with
  | nil => intro c; rfl
  | cons x xs ih =>
      intro c
      simpa [fmaxF] using ih (max c x)

lemma aminF_map_fin (c : ℚ) (l : List ℚ) :
    aminF ((c :: l).map FV.fin) = FV.fin (l.foldl min c) := by
  simpa [aminF] using foldl_fminF_fin l c

lemma amaxF_map_fin (c : ℚ) (l : List ℚ) :
    amaxF ((c :: l).map FV.fin) = FV.fin (l.foldl max c) := by
  simpa [amaxF] using foldl_fmaxF_fin l c

lemma foldlMin_le_init (l : List ℚ) : ∀ c : ℚ, l.foldl min c ≤ c := by
  induction l with
  | nil => intro c; simp
  | cons x xs ih =>
      intro c
      calc xs.foldl min (min c x) ≤ min c x := ih (min c x)
        _ ≤ c := min_le_left _ _

lemma foldlMin_le_mem (l : List ℚ) :
    ∀ c : ℚ, ∀ v ∈ l, l.foldl min c ≤ v := by
  induction l with
  | nil => intro c v hv; cases hv
  | cons x xs ih =>
      intro c v hv
      rcases List.mem_cons.mp hv with h | h
      · subst h
        calc xs.foldl min (min c v) ≤ min c v := foldlMin_le_init xs _
          _ ≤ v := min_le_right _ _
      · exact ih (min c x) v h

lemma foldlMax_init_le (l : List ℚ) : ∀ c : ℚ, c ≤ l.foldl max c := by
  induction l with
  | nil => intro c; simp
  | cons x xs ih =>
      intro c
      calc c ≤ max c x := le_max_left _ _
        _ ≤ xs.foldl max (max c x) := ih (max c x)

lemma foldlMax_mem_le (l : List ℚ) :
    ∀ c : ℚ, ∀ v ∈ l, v ≤ l.foldl max c := by
  induction l with
  | nil => intro c v hv; cases hv
  | cons x xs ih =>
      intro c v hv
      rcases List.mem_cons.mp hv with h | h
      · subst h
        calc v ≤ max c v := le_max_right _ _
          _ ≤ xs.foldl max (max c v) := foldlMax_init_le xs _
      · exact ih (max c x) v h

lemma foldlMin_mem (l : List ℚ) : ∀ c : ℚ, l.foldl min c ∈ c :: l := by
  induction l with
  | nil => intro c; simp
  | cons x xs ih =>
      intro c
      have h := ih (min c x)
      rcases List.mem_cons.mp h with h | h
      · rcases min_choice c x with hc | hc
        · exact List.mem_cons.mpr (Or.inl (h.trans hc))
        · refine List.mem_cons.mpr (Or.inr ?_)
          exact List.mem_cons.mpr (Or.inl (h.trans hc))
      · exact List.mem_cons.mpr (Or.inr (List.mem_cons.mpr (Or.inr h)))

lemma fminF_bot_absorb (xs : List FV) :
    ∀ a : FV, (a = FV.ninf ∨ a = FV.nan) →
      xs.foldl fminF a = FV.ninf ∨ xs.foldl fminF a = FV.nan := by
  induction xs with
  | nil => intro a ha; simpa using ha
  | cons x xs ih =>
      intro a ha
      rcases ha with ha | ha <;> subst ha
      · cases x <;> exact ih _ (by simp [fminF])
      · cases x <;> exact ih _ (by simp [fminF])

lemma foldl_fminF_ninf_mem (xs : List FV) :
    ∀ a : FV, FV.ninf ∈ xs →
      xs.foldl fminF a = FV.ninf ∨ xs.foldl fminF a = FV.nan := by
  induction xs with
  | nil => intro a ha; cases ha
  | cons y ys ih =>
      intro a ha
      rcases List.mem_cons.mp ha with hy | hy
      · subst hy
        have h : fminF a FV.ninf = FV.ninf ∨ fminF a FV.ninf = FV.nan := by
          cases a <;> simp [fminF]
        exact fminF_bot_absorb ys _ h
      · exact ih (fminF a y) hy

lemma aminF_of_ninf_mem (l : List FV) (h : FV.ninf ∈ l) :
    aminF l = FV.ninf ∨ aminF l = FV.nan := by
  cases l with
  | nil => cases h
  | cons x xs =>
      rcases List.mem_cons.mp h with hx | hx
      · subst hx
        exact fminF_bot_absorb xs _ (Or.inl rfl)
      · exact foldl_fminF_ninf_mem xs x hx

lemma foldlMin_replicate (c : ℚ) : ∀ n : ℕ, (List.replicate n c).foldl min c = c := by
  intro n
  induction n with
  | zero => rfl
  | succ k ih => simpa [List.replicate_succ] using ih

lemma foldlMax_replicate (c : ℚ) : ∀ n : ℕ, (List.replicate n c).foldl max c = c := by
  intro n
  induction n with
  | zero => rfl
  | succ k ih => simpa [List.replicate_succ] using ih

/-! ### Claim theorems -/

/-- C1: the round trip fails on the code.  The artifacts are written with
`header=False` but reloaded by `pd.read_csv` with its default
`header='infer'`, which consumes the first data line as column names:
reloading the two-row Scenario-A raw table yields one row, the first
sample's label and feature vector are gone, and the surviving row sits
at a shifted index.  The spec's round-trip property is the evident
intent (the write explicitly suppresses the header), so this is a bug in
the code's read side. -/
theorem read_csv_roundtrip_drops_first_row :
    to_csv [toRow (0, sample1), toRow (1, sample2)]
      = [toRow (0, sample1), toRow (1, sample2)]
    ∧ read_csv (to_csv [toRow (0, sample1), toRow (1, sample2)])
      = [toRow (1, sample2)]
    ∧ (read_csv (to_csv [toRow (0, sample1), toRow (1, sample2)])).length = 1
    ∧ [toRow (0, sample1), toRow (1, sample2)].length = 2 :=
  ⟨rfl, rfl, rfl, rfl⟩

/-- C4 counterexample: `generate_onehot_value` has no error path.  On the
out-of-range label 2 it returns normally with the empty list (no
`ConfigError` is raised), and on `[0, 2, 1]` it silently drops the
middle label, so the output is shorter than the input and no longer
aligned position by position. -/
theorem generate_onehot_out_of_range_silently_skipped :
    generate_onehot_value [2] = []
    ∧ generate_onehot_value [0, 2, 1] = [[1, -1], [-1, 1]]
    ∧ (generate_onehot_value [0, 2, 1]).length = 2 := by
  norm_num [generate_onehot_value]

/-- C4 (amended): on labels drawn from `{0,1}` the encoding maps
position by position, `0 → [1, -1]` and `1 → [-1, 1]`; a label outside
`{0,1}` is silently skipped — no bipolar vector is produced for it and
no error is raised, the rest of the list being encoded as if the label
were absent. -/
theorem generate_onehot_value_spec :
    (∀ vals : List ℚ, (∀ v ∈ vals, v = 0 ∨ v = 1) →
      generate_onehot_value vals
        = vals.map (fun v => if v = 0 then [1, -1] else [-1, 1]))
    ∧ (∀ (pre post : List ℚ) (v : ℚ), v ≠ 0 → v ≠ 1 →
      generate_onehot_value (pre ++ v :: post)
        = generate_onehot_value (pre ++ post)) := by
  constructor
  · intro vals h
    induction vals with
    | nil => rfl
    | cons x xs ih =>
        have hx := h x (List.mem_cons_self x xs)
        have ihx := ih (fun v hv => h v (List.mem_cons_of_mem _ hv))
        rcases hx with hx | hx <;> subst hx <;>
          simp [generate_onehot_value, ihx]
  · intro pre post v h0 h1
    induction pre with
    | nil => simp [generate_onehot_value, h0, h1]
    | cons x xs ih =>
        by_cases hx0 : x = 0
        · simp [generate_onehot_value, hx0, ih]
        · by_cases hx1 : x = 1
          · simp [generate_onehot_value, hx0, hx1, ih]
          · simp [generate_onehot_value, hx0, hx1, ih]

/-- C4 witness: the amended statement at the concrete labels `[0, 1]`
and at the out-of-range label 2 inserted between them. -/
theorem generate_onehot_value_spec_witness :
    generate_onehot_value [0, 1]
      = [(0 : ℚ), 1].map (fun v => if v = 0 then [1, -1] else [-1, 1])
    ∧ generate_onehot_value ([0] ++ (2 : ℚ) :: [1])
      = generate_onehot_value ([0] ++ [1]) :=
  ⟨generate_onehot_value_spec.1 [0, 1] (by norm_num),
   generate_onehot_value_spec.2 [0] [1] 2 (by norm_num) (by norm_num)⟩

/-- C2 counterexample: the normalization notebook raises no
`DomainError` anywhere.  Applying `norm_1` to the sample `[0, 1]`
(a zero pixel) returns normally: `log10` turns the zero pixel into
`-inf`, the per-sample minimum of the logs is `-inf`, and the
subtraction yields `[-inf - -inf, 0 - -inf] = [nan, +inf]`.  The
technique loop appends this row unchanged, so a row containing
non-finite values IS written to the persisted table. -/
theorem norm_1_zero_pixel_row_written :
    norm_1 logStub [FV.fin 0, FV.fin 1] = [FV.nan, FV.inf]
    ∧ applyTechnique (norm_1 logStub) [(0, [FV.fin 0, FV.fin 1])]
      = [(0, [FV.nan, FV.inf])]
    ∧ isFinite FV.nan = false
    ∧ isFinite FV.inf = false := by
  norm_num [norm_1, logStub, log10F, aminF, fminF, subF, applyTechnique, isFinite]

/-- C2 (amended): degenerate inputs raise nothing and are silently
persisted as non-finite rows: a sample containing a zero pixel makes
`norm_1` produce `nan` among its outputs, a constant sample makes every
output of `norm_2` equal `nan`, and the technique loop writes one row
per sample unconditionally, so such rows reach the persisted table. -/
theorem norm_degenerate_rows_persisted (L : ℚ → ℚ) (data : List FV)
    (h : FV.fin 0 ∈ data) :
    FV.nan ∈ norm_1 L data
    ∧ (∀ (n : ℕ) (c : ℚ), ∀ y ∈ norm_2 (List.replicate (n + 1) (FV.fin c)), y = FV.nan)
    ∧ (∀ (technique : List FV → List FV) (tbl : List Sample),
        (applyTechnique technique tbl).length = tbl.length) := by
  refine ⟨?_, ?_, ?_⟩
  · have hlog : FV.ninf ∈ data.map (log10F L) :=
      List.mem_map.mpr ⟨FV.fin 0, h, by simp [log10F]⟩
    have hm := aminF_of_ninf_mem _ hlog
    simp only [norm_1]
    rcases hm with hm | hm
    · exact List.mem_map.mpr ⟨FV.ninf, hlog, by rw [hm]; rfl⟩
    · exact List.mem_map.mpr ⟨FV.ninf, hlog, by rw [hm]; rfl⟩
  · intro n c y hy
    have hrep : List.replicate (n + 1) (FV.fin c)
        = (c :: List.replicate n c).map FV.fin := by
      simp [List.replicate_succ]
    have hmin : aminF (List.replicate (n + 1) (FV.fin c)) = FV.fin c := by
      rw [hrep, aminF_map_fin, foldlMin_replicate]
    have hmax : amaxF (List.replicate (n + 1) (FV.fin c)) = FV.fin c := by
      rw [hrep, amaxF_map_fin, foldlMax_replicate]
    simp only [norm_2, hmin, hmax] at hy
    rcases List.mem_map.mp hy with ⟨x, hx, rfl⟩
    rw [List.eq_of_mem_replicate hx]
    simp [subF, divF]
  · intro technique tbl
    simp [applyTechnique]

/-- C2 witness: the amended statement at the concrete zero-pixel sample
`[0, 1]` and the concrete constant sample `[5, 5, 5]`. -/
theorem norm_degenerate_rows_persisted_witness :
    FV.nan ∈ norm_1 logStub [FV.fin 0, FV.fin 1]
    ∧ ∀ y ∈ norm_2 (List.replicate 3 (FV.fin 5)), y = FV.nan := by
  have h := norm_degenerate_rows_persisted logStub [FV.fin 0, FV.fin 1] (by simp)
  exact ⟨h.1, by simpa using h.2.1 2 5⟩

/-- C5: T3 and T4 are the claimed elementwise maps
(`(x - min_all) / (max_all - min_all)` and `(x - min(x)) / max_all`),
and on Scenario A's corpus (raw grids `[[1,2],[3,4]]` and
`[[5,6],[7,8]]`, so `min_all = 1`, `max_all = 8`) sample 1 maps to
`[0, 1/7, 2/7, 3/7]` under T3 and `[0, 1/8, 1/4, 3/8]` under T4. -/
theorem norm_3_norm_4_formulas :
    (∀ (mn mx : FV) (data : List FV) (i : ℕ),
      (norm_3 mn mx data)[i]?
        = data[i]?.map (fun x => divF (subF x mn) (subF mx mn)))
    ∧ (∀ (mx : FV) (data : List FV) (i : ℕ),
      (norm_4 mx data)[i]?
        = data[i]?.map (fun x => divF (subF x (aminF data)) mx))
    ∧ min_pixel_all scenarioA = FV.fin 1
    ∧ max_pixel_all scenarioA = FV.fin 8
    ∧ norm_3 (min_pixel_all scenarioA) (max_pixel_all scenarioA) sample1
      = [FV.fin 0, FV.fin (1/7), FV.fin (2/7), FV.fin (3/7)]
    ∧ norm_4 (max_pixel_all scenarioA) sample1
      = [FV.fin 0, FV.fin (1/8), FV.fin (1/4), FV.fin (3/8)] := by
  refine ⟨?_, ?_, ?_, ?_, ?_, ?_⟩
  · intro mn mx data i
    simp [norm_3, List.getElem?_map]
  · intro mx data i
    simp [norm_4, List.getElem?_map]
  · norm_num [min_pixel_all, scenarioA, sample1, sample2, aminF, fminF]
  · norm_num [max_pixel_all, scenarioA, sample1, sample2, amaxF, fmaxF]
  · norm_num [norm_3, min_pixel_all, max_pixel_all, scenarioA, sample1,
      sample2, aminF, amaxF, fminF, fmaxF, subF, divF]
  · norm_num [norm_4, max_pixel_all, scenarioA, sample1, sample2, aminF,
      amaxF, fminF, fmaxF, subF, divF]

/-- C6 counterexample: the sweep body calls the classifier with no
`try`/`except`.  With a classifier that fails on trial 2 and succeeds on
trials 1 and 3, the sweep stops at the failure: trial 3 contributes no
result even though its classifier call would succeed, so the failure
does not abort "only that trial". -/
theorem sweep_classifier_failure_aborts_sweep :
    sweepLoop
        (fun t => if t = 2 then .error ⟨"do_classify failed"⟩ else .ok (t : ℚ))
        [1, 2, 3]
      = ([(1, 1)], some ⟨"do_classify failed"⟩)
    ∧ (fun t => if t = 2
          then (Except.error ⟨"do_classify failed"⟩ : Except ClassifierError ℚ)
          else .ok (t : ℚ)) 3
      = .ok 3 := by
  norm_num [sweepLoop]

/-- C6 (amended): a classifier failure propagates as an uncaught
exception: the sweep stops at the failing trial, no later trial runs,
nothing records the error as a per-trial result, and only the results
of the trials completed before the failure remain. -/
theorem sweep_failure_aborts_rest (classify : ℕ → Except ClassifierError ℚ)
    (pre post : List ℕ) (t : ℕ) (e : ClassifierError) (acc : ℕ → ℚ)
    (hfail : classify t = .error e)
    (hpre : ∀ s ∈ pre, classify s = .ok (acc s)) :
    sweepLoop classify (pre ++ t :: post)
      = (pre.map (fun s => (s, acc s)), some e) := by
  induction pre with
  | nil => simp [sweepLoop, hfail]
  | cons x xs ih =>
      have hx := hpre x (List.mem_cons_self x xs)
      have ihx := ih (fun s hs => hpre s (List.mem_cons_of_mem _ hs))
      simp [sweepLoop, hx, ihx]

/-- C6 witness: the amended statement at a three-trial sweep whose
middle trial fails. -/
theorem sweep_failure_aborts_rest_witness :
    sweepLoop (fun t => if t = 4 then .error ⟨"fail"⟩ else .ok (t : ℚ))
        (([0] : List ℕ) ++ 4 :: [5])
      = ([((0 : ℕ), (0 : ℚ))], some ⟨"fail"⟩) := by
  have h := sweep_failure_aborts_rest
    (fun t => if t = 4 then .error ⟨"fail"⟩ else .ok (t : ℚ))
    [0] [5] 4 ⟨"fail"⟩ (fun s => (s : ℚ)) (by norm_num) (by norm_num)
  simpa using h

/-- C9: every technique is an elementwise map, so its output has the
length of its input, and the flattening of a 20×20 cutout has length
400; in particular every technique's output on a flattened cutout has
length 400 (the raw table's vector is the flattened input itself). -/
theorem technique_output_length (L : ℚ → ℚ) (mn mx : FV)
    (image : List (List FV)) (data : List FV)
    (h20 : image.length = 20) (hrow : ∀ row ∈ image, row.length = 20) :
    (flattenImage image).length = 400
    ∧ (norm_1 L data).length = data.length
    ∧ (norm_2 data).length = data.length
    ∧ (norm_3 mn mx data).length = data.length
    ∧ (norm_4 mx data).length = data.length
    ∧ (norm_5 L mx data).length = data.length
    ∧ (norm_1 L (flattenImage image)).length = 400
    ∧ (norm_2 (flattenImage image)).length = 400
    ∧ (norm_3 mn mx (flattenImage image)).length = 400
    ∧ (norm_4 mx (flattenImage image)).length = 400
    ∧ (norm_5 L mx (flattenImage image)).length = 400 := by
  have hflat : (flattenImage image).length = 400 := by
    have hall : ∀ x ∈ image.map List.length, x = 20 := by
      intro x hx
      rcases List.mem_map.mp hx with ⟨row, hmem, rfl⟩
      exact hrow row hmem
    have hsum := List.sum_eq_card_nsmul _ 20 hall
    simp only [flattenImage, List.length_flatten, hsum, List.length_map, h20,
      smul_eq_mul]
  have h1 : ∀ d : List FV, (norm_1 L d).length = d.length := by
    intro d; simp [norm_1]
  have h2 : ∀ d : List FV, (norm_2 d).length = d.length := by
    intro d; simp [norm_2]
  have h3 : ∀ d : List FV, (norm_3 mn mx d).length = d.length := by
    intro d; simp [norm_3]
  have h4 : ∀ d : List FV, (norm_4 mx d).length = d.length := by
    intro d; simp [norm_4]
  have h5 : ∀ d : List FV, (norm_5 L mx d).length = d.length := by
    intro d; simp [norm_5]
  refine ⟨hflat, h1 data, h2 data, h3 data, h4 data, h5 data, ?_, ?_, ?_, ?_, ?_⟩
  · rw [h1, hflat]
  · rw [h2, hflat]
  · rw [h3, hflat]
  · rw [h4, hflat]
  · rw [h5, hflat]

/-- C3 counterexample: sklearn's `train_test_split` sizes the test side
as `⌈r·N⌉`, not `round(r·N)`.  At `N = 7` rows and ratio `r = 1/5`
(one of the notebook's own `test_size_values` is 0.2): `r·N = 1.4`,
`round(1.4) = 1`, but the split's test side has 2 indices (shown with
the identity permutation). -/
theorem split_test_size_not_round :
    train_test_split 7 (1/5) [0, 1, 2, 3, 4, 5, 6]
      = some ([0, 1], [2, 3, 4, 5, 6])
    ∧ (round ((1/5 : ℚ) * ((7 : ℕ) : ℚ))).toNat = 1
    ∧ ([0, 1] : List ℕ).length ≠ 1 := by
  have hceil : (⌈(1/5 : ℚ) * ((7 : ℕ) : ℚ)⌉ : ℤ) = 2 := by
    rw [Int.ceil_eq_iff]
    norm_num
  have hround : (round ((1/5 : ℚ) * ((7 : ℕ) : ℚ)) : ℤ) = 1 := by
    rw [round_eq, Int.floor_eq_iff]
    norm_num
  refine ⟨?_, ?_, by norm_num⟩
  · simp only [train_test_split, hceil]
    decide
  · rw [hround]
    rfl

/-- C3 (amended): whenever the split succeeds (sklearn raises
`ValueError` when a side would be empty), it partitions the row indices
`{0..N-1}` into disjoint `test` and `train` whose concatenation is a
permutation of all `N` indices, with `|test| = ⌈r·N⌉` and `train` the
remainder — for any seeded permutation `perm` of the indices. -/
theorem train_test_split_partitions (N : ℕ) (r : ℚ) (perm te tr : List ℕ)
    (hperm : perm.Perm (List.range N))
    (h : train_test_split N r perm = some (te, tr)) :
    te.length = (⌈r * (N : ℚ)⌉).toNat
    ∧ tr.length = N - te.length
    ∧ te.Disjoint tr
    ∧ (te ++ tr).Perm (List.range N) := by
  have hlen : perm.length = N := hperm.length_eq.trans (List.length_range N)
  have hnodup : perm.Nodup := (hperm.nodup_iff).mpr (List.nodup_range N)
  simp only [train_test_split] at h
  split at h
  · cases h
  · rename_i hc
    push_neg at hc
    obtain ⟨hte, htr⟩ := Prod.mk.injEq .. ▸ Option.some.inj h
    have hntN : (⌈r * (N : ℚ)⌉).toNat ≤ N := by
      by_contra hgt
      push_neg at hgt
      exact hc.2 (Nat.sub_eq_zero_of_le hgt.le)
    subst hte htr
    refine ⟨?_, ?_, ?_, ?_⟩
    · simp [List.length_take, hlen, hntN]
    · simp [List.length_drop, List.length_take, hlen, hntN]
    · exact List.disjoint_take_drop hnodup le_rfl
    · rw [List.take_append_drop]
      exact hperm

/-- C3 witness: the amended statement at `N = 4`, `r = 1/2` and the
concrete permutation `[2, 0, 3, 1]`, where the split is
`test = [2, 0]`, `train = [3, 1]`. -/
theorem train_test_split_partitions_witness :
    ([2, 0] : List ℕ).length = (⌈(1/2 : ℚ) * ((4 : ℕ) : ℚ)⌉).toNat
    ∧ ([3, 1] : List ℕ).length = 4 - ([2, 0] : List ℕ).length
    ∧ ([2, 0] : List ℕ).Disjoint [3, 1]
    ∧ (([2, 0] : List ℕ) ++ [3, 1]).Perm (List.range 4) := by
  have hceil : (⌈(1/2 : ℚ) * ((4 : ℕ) : ℚ)⌉ : ℤ) = 2 := by
    rw [Int.ceil_eq_iff]
    norm_num
  have h : train_test_split 4 (1/2) [2, 0, 3, 1] = some ([2, 0], [3, 1]) := by
    simp only [train_test_split, hceil]
    decide
  exact train_test_split_partitions 4 (1/2) [2, 0, 3, 1] [2, 0] [3, 1]
    (by decide) h

/-- C7: every output element of T2 on a non-constant sample lies in
`[0, 1]`, and every output element of T3 on a sample whose values lie in
the corpus range `[min_all, max_all]` of a non-degenerate corpus lies in
`[0, 1]`. -/
theorem norm_2_norm_3_in_unit_interval :
    (∀ (x : List ℚ) (a b : ℚ), a ∈ x → b ∈ x → a ≠ b →
      ∀ y ∈ norm_2 (x.map FV.fin), inUnitInterval y)
    ∧ (∀ (x : List ℚ) (mn mx : ℚ), mn < mx → (∀ v ∈ x, mn ≤ v ∧ v ≤ mx) →
      ∀ y ∈ norm_3 (FV.fin mn) (FV.fin mx) (x.map FV.fin), inUnitInterval y) := by
  constructor
  · intro x a b ha hb hab y hy
    cases x with
    | nil => cases ha
    | cons c l =>
        have hminfin := aminF_map_fin c l
        have hmaxfin := amaxF_map_fin c l
        have hmle : ∀ v ∈ c :: l, l.foldl min c ≤ v := by
          intro v hv
          rcases List.mem_cons.mp hv with hv | hv
          · subst hv
            exact foldlMin_le_init l v
          · exact foldlMin_le_mem l c v hv
        have hMge : ∀ v ∈ c :: l, v ≤ l.foldl max c := by
          intro v hv
          rcases List.mem_cons.mp hv with hv | hv
          · subst hv
            exact foldlMax_init_le l v
          · exact foldlMax_mem_le l c v hv
        have hmM : l.foldl min c < l.foldl max c := by
          rcases lt_or_gt_of_ne hab with hlt | hlt
          · exact lt_of_le_of_lt (hmle a ha) (lt_of_lt_of_le hlt (hMge b hb))
          · exact lt_of_le_of_lt (hmle b hb) (lt_of_lt_of_le hlt (hMge a ha))
        simp only [norm_2, hminfin, hmaxfin] at hy
        rcases List.mem_map.mp hy with ⟨w, hw, rfl⟩
        rcases List.mem_map.mp hw with ⟨v, hv, rfl⟩
        have hden : l.foldl max c - l.foldl min c ≠ 0 :=
          sub_ne_zero_of_ne (ne_of_gt hmM)
        simp only [subF, divF, if_neg hden]
        show 0 ≤ _ ∧ _ ≤ 1
        constructor
        · exact div_nonneg (sub_nonneg.mpr (hmle v hv)) (sub_pos.mpr hmM).le
        · rw [div_le_one (sub_pos.mpr hmM)]
          exact sub_le_sub_right (hMge v hv) _
  · intro x mn mx hmn hbound y hy
    simp only [norm_3] at hy
    rcases List.mem_map.mp hy with ⟨w, hw, rfl⟩
    rcases List.mem_map.mp hw with ⟨v, hv, rfl⟩
    have hden : mx - mn ≠ 0 := sub_ne_zero_of_ne (ne_of_gt hmn)
    simp only [subF, divF, if_neg hden]
    show 0 ≤ _ ∧ _ ≤ 1
    constructor
    · exact div_nonneg (sub_nonneg.mpr (hbound v hv).1) (sub_pos.mpr hmn).le
    · rw [div_le_one (sub_pos.mpr hmn)]
      exact sub_le_sub_right (hbound v hv).2 _

/-- C7 witness: the range property at the concrete non-constant sample
`[1, 2]` (T2) and at the sample `[1]` inside corpus range `[0, 4]`
(T3). -/
theorem norm_2_norm_3_in_unit_interval_witness :
    inUnitInterval (FV.fin 0) ∧ inUnitInterval (FV.fin (1/4)) := by
  have hmem2 : FV.fin 0 ∈ norm_2 (([1, 2] : List ℚ).map FV.fin) := by
    norm_num [norm_2, aminF, amaxF, fminF, fmaxF, subF, divF]
  have hmem3 : FV.fin (1/4) ∈ norm_3 (FV.fin 0) (FV.fin 4)
      (([1] : List ℚ).map FV.fin) := by
    norm_num [norm_3, subF, divF]
  exact ⟨norm_2_norm_3_in_unit_interval.1 [1, 2] 1 2 (by norm_num)
      (by norm_num) (by norm_num) _ hmem2,
    norm_2_norm_3_in_unit_interval.2 [1] 0 4 (by norm_num)
      (by norm_num) _ hmem3⟩

/-- If every filename matches the `star`/`galaxy` prefix convention the
labeler's two `if` statements assign each file its own label. -/
lemma labelOf_eq (prev : Option ℚ) (file : String)
    (h : startswith file "star" = true ∨ startswith file "galaxy" = true) :
    labelOf prev file = some (if startswith file "galaxy" then 1 else 0) := by
  unfold labelOf
  rcases h with h | h
  · cases hg : startswith file "galaxy" <;> simp [h, hg]
  · simp [h]

lemma loadLoop_eq (files : List (String × List FV)) :
    ∀ prev : Option ℚ,
      (∀ f ∈ files, startswith f.1 "star" = true ∨ startswith f.1 "galaxy" = true) →
      loadLoop prev files
        = some (files.map (fun f =>
            ((if startswith f.1 "galaxy" then (1 : ℚ) else 0), f.2))) := by
  induction files with
  | nil =>
      intro prev h
      rfl
  | cons f fs ih =>
      intro prev h
      obtain ⟨name, image⟩ := f
      have hf := h (name, image) (List.mem_cons_self _ _)
      simp only [loadLoop, labelOf_eq prev name hf,
        ih _ (fun g hg => h g (List.mem_cons_of_mem _ hg)), Option.map_some]
      rfl

/-- C8: under the cutout generator's naming convention (every cutout
file is saved as `star_<n>.fits` or `galaxy_<n>.fits`), the loader
labels every row with its own file's class — 1 exactly for
`galaxy`-prefixed files, 0 for the rest (`star`-prefixed) — and in every
persisted table (the raw one and every technique's) each row's first
field is that label, which is always 0 or 1. -/
theorem loader_label_first_field_binary (files : List (String × List FV))
    (hnames : ∀ f ∈ files,
      startswith f.1 "star" = true ∨ startswith f.1 "galaxy" = true) :
    loadLoop none files
      = some (files.map (fun f =>
          ((if startswith f.1 "galaxy" then (1 : ℚ) else 0), f.2)))
    ∧ ∀ rows : List Sample, loadLoop none files = some rows →
        applyTechnique (fun d => d) rows = rows
        ∧ ∀ technique : List FV → List FV,
            ∀ row ∈ applyTechnique technique rows,
              (row.1 = 0 ∨ row.1 = 1) ∧ (toRow row)[0]? = some (FV.fin row.1) := by
  have hload := loadLoop_eq files none hnames
  refine ⟨hload, ?_⟩
  intro rows hrows
  rw [hload] at hrows
  have hrows2 := (Option.some.inj hrows).symm
  constructor
  · simp [applyTechnique]
  · intro technique row hrow
    rcases List.mem_map.mp hrow with ⟨r, hr, rfl⟩
    rw [hrows2] at hr
    rcases List.mem_map.mp hr with ⟨f, hf, rfl⟩
    constructor
    · by_cases hg : startswith f.1 "galaxy" = true <;> simp [hg]
    · simp [toRow]

/-- C8 witness: the loader invariant at a concrete two-file corpus
following the generator's naming convention. -/
theorem loader_label_first_field_binary_witness :
    loadLoop none [("star_0.fits", [FV.fin 2]), ("galaxy_1.fits", [FV.fin 3])]
      = some [((0 : ℚ), [FV.fin 2]), ((1 : ℚ), [FV.fin 3])] := by
  have h := (loader_label_first_field_binary
      [("star_0.fits", [FV.fin 2]), ("galaxy_1.fits", [FV.fin 3])]
      (by decide)).1
  have h1 : startswith "star_0.fits" "galaxy" = false := by decide
  have h2 : startswith "galaxy_1.fits" "galaxy" = true := by decide
  simpa [h1, h2] using h

/-- C10: `norm_5` divides by `log10(max_pixel_all)`; that divisor is the
finite value 0 when the corpus maximum is exactly 1 (so the division is
a division by zero even for an all-positive sample: `nan` appears in the
output), a strictly negative finite value when the corpus maximum lies
in `(0, 1)`, and a strictly positive finite value only when the corpus
maximum exceeds 1. -/
theorem norm_5_divisor_sign (L : ℚ → ℚ) (m : ℚ) (data : List ℚ)
    (hL1 : L 1 = 0)
    (hLlt : ∀ q : ℚ, 0 < q → q < 1 → L q < 0)
    (hLgt : ∀ q : ℚ, 1 < q → 0 < L q)
    (hpos : ∀ v ∈ data, 0 < v) (hne : data ≠ []) :
    log10F L (FV.fin 1) = FV.fin 0
    ∧ (0 < m → m < 1 → ∃ v : ℚ, log10F L (FV.fin m) = FV.fin v ∧ v < 0)
    ∧ (1 < m → ∃ v : ℚ, log10F L (FV.fin m) = FV.fin v ∧ 0 < v)
    ∧ FV.nan ∈ norm_5 L (FV.fin 1) (data.map FV.fin) := by
  refine ⟨by simp [log10F, hL1], ?_, ?_, ?_⟩
  · intro h0 h1
    exact ⟨L m, by simp [log10F, h0], hLlt m h0 h1⟩
  · intro h1
    exact ⟨L m, by simp [log10F, lt_trans zero_lt_one h1], hLgt m h1⟩
  · cases data with
    | nil => exact absurd rfl hne
    | cons d ds =>
        have hmap1 : ((d :: ds).map FV.fin).map (log10F L)
            = (d :: ds).map (fun v => FV.fin (L v)) := by
          rw [List.map_map]
          apply List.map_congr_left
          intro v hv
          simp [Function.comp, log10F, hpos v hv]
        have hmap2 : (d :: ds).map (fun v => FV.fin (L v))
            = ((L d) :: ds.map L).map FV.fin := by
          simp [List.map_map, Function.comp]
        have hmap := hmap1.trans hmap2
        have hamin : aminF (((d :: ds).map FV.fin).map (log10F L))
            = FV.fin ((ds.map L).foldl min (L d)) := by
          rw [hmap]
          exact aminF_map_fin _ _
        have hmem : FV.fin ((ds.map L).foldl min (L d))
            ∈ ((d :: ds).map FV.fin).map (log10F L) := by
          rw [hmap]
          exact List.mem_map_of_mem _ (foldlMin_mem (ds.map L) (L d))
        simp only [norm_5, hamin]
        refine List.mem_map.mpr ⟨FV.fin ((ds.map L).foldl min (L d)), hmem, ?_⟩
        simp [subF, divF, log10F, hL1]

/-- C10 witness: the divisor facts at `max_pixel_all = 1` with the
all-positive one-pixel sample `[2]`, instantiating the abstract log. -/
theorem norm_5_divisor_sign_witness :
    log10F logStub (FV.fin 1) = FV.fin 0
    ∧ FV.nan ∈ norm_5 logStub (FV.fin 1) (([2] : List ℚ).map FV.fin) := by
  have h := norm_5_divisor_sign logStub (1/2) [2] (by norm_num [logStub])
      (fun q h1 h2 => by simp only [logStub]; linarith)
      (fun q h1 => by simp only [logStub]; linarith)
      (by norm_num) (by norm_num)
  exact ⟨h.1, h.2.2.2⟩

/-- C9 witness: the length property at a concrete constant 20×20 cutout
and a concrete one-pixel vector. -/
theorem technique_output_length_witness :
    (flattenImage (List.replicate 20 (List.replicate 20 (FV.fin 1)))).length = 400
    ∧ (norm_1 logStub [FV.fin 1]).length = 1 := by
  have h := technique_output_length logStub (FV.fin 1) (FV.fin 8)
      (List.replicate 20 (List.replicate 20 (FV.fin 1))) [FV.fin 1] (by simp)
      (fun row hr => by rw [List.eq_of_mem_replicate hr]; simp)
  exact ⟨h.1, by simpa using h.2.1⟩

end ZTF
